import Mathlib

/-!
Verification of `ndo_base_info.py`: a shallow embedding of the script's
record-recovery pipeline (regex-based JSON object boundary detection,
JSON parsing, archive dispatch and recursive expansion, site/audit/version
projection) together with theorems settling the frozen claims.

Strings from the source are embedded as `List Char`. Python machine-level
concerns (filesystem handles, real regex engine, recursion limits) are
modelled by explicit data: a file that cannot be read is `none`, an
exception is an explicit error value.
-/

/-- Convert a Lean string literal to the `List Char` representation used
throughout the embedding. -/
def toL (s : String) : List Char := s.data

/-- Characters matched by Python regex `\s` on ASCII text (re module:
space, tab, newline, carriage return, form feed, vertical tab). -/
def isPyWs (c : Char) : Bool :=
  c = ' ' || c = '\t' || c = '\n' || c = '\r' || c = '\x0c' || c = '\x0b'

/-- Characters treated as whitespace by Python's `json` decoder
(json.decoder WHITESPACE is the set space, tab, newline, carriage return). -/
def isJsonWs (c : Char) : Bool :=
  c = ' ' || c = '\t' || c = '\n' || c = '\r'

/-- ASCII decimal digit test. -/
def isDigitChar (c : Char) : Bool := '0' ≤ c && c ≤ '9'

/-- Numeric value of an ASCII digit. -/
def digitVal (c : Char) : Nat := c.toNat - 48

/-- JSON values as produced by `json.loads`, restricted to the fragment the
tech-support files use: numbers are modelled as integers (the script's
record files carry no floats), objects as association lists in textual
order (duplicate keys: lookup takes the last occurrence, like a Python
dict built by repeated insertion). -/
inductive Json where
  | null : Json
  | bool (b : Bool) : Json
  | num (n : Int) : Json
  | str (s : List Char) : Json
  | arr (xs : List Json) : Json
  | obj (fields : List (List Char × Json)) : Json
deriving Repr

/-!
### Object-boundary detection

`correct_json_format` uses `re.findall` with pattern `{.*?}` (DOTALL) and a
lookahead requiring the closing brace to be followed by optional whitespace
and then either another opening brace or the end of the text.  The scan is
modelled from the Python regex engine's behaviour: at each position, a match
starts at an opening brace and extends lazily to the first closing brace
whose lookahead succeeds; scanning resumes right after a match.
-/

/-- The regex lookahead after a candidate closing brace: optional `\s*`
followed by an opening brace or the end of the text. -/
def lookahead (s : List Char) : Bool :=
  (s.dropWhile isPyWs).isEmpty || (s.dropWhile isPyWs).head? = some '\x7b'

/-- Lazy extension of a candidate match that started at an opening brace:
consume characters up to and including the first closing brace whose
lookahead succeeds; return the consumed span and the remainder.  `none` if
no such closing brace exists (the regex match at this start fails). -/
def tryMatch : List Char → Option (List Char × List Char)
  | [] => none
  | c :: rest =>
    if c = '\x7d' && lookahead rest then some ([c], rest)
    else (tryMatch rest).map (fun p => (c :: p.1, p.2))

/-- Fuelled scan over the text: at an opening brace, attempt the lazy match;
on success emit the span and resume after it, otherwise (and at any other
character) move one character forward.  Fuel at least the text length makes
the fuel immaterial. -/
def findAllF : Nat → List Char → List (List Char)
  | 0, _ => []
  | _ + 1, [] => []
  | fuel + 1, c :: rest =>
    if c = '\x7b' then
      match tryMatch rest with
      | some (m, rem) => (c :: m) :: findAllF fuel rem
      | none => findAllF fuel rest
    else findAllF fuel rest

/-- All regex matches of `\x7b.*?\x7d(?=\s*\x7b|\s*$)` in the text, in order:
the ObjectBoundaries of the spec. -/
def findAll (s : List Char) : List (List Char) := findAllF s.length s

/-!
### JSON parsing (`json.loads`)

A consuming recursive-descent parser over `List Char`, modelling the json
module's decoder on the fragment the script's files use.  Deviations from
CPython, stated once: numbers are decimal integers (no floats, `NaN` or
`Infinity`); string escapes cover the single-character escapes but not
`\uXXXX`.  Inputs outside the fragment fail to parse.  Recursion is fuelled;
fuel `length + 1` is enough because every recursive step consumes input.
-/

/-- Skip the whitespace the json decoder skips. -/
def skipJsonWs (s : List Char) : List Char := s.dropWhile isJsonWs

/-- Single-character string escapes of the json decoder. -/
def escChar (e : Char) : Option Char :=
  if e = '"' then some '"'
  else if e = '\\' then some '\\'
  else if e = '/' then some '/'
  else if e = 'n' then some '\n'
  else if e = 't' then some '\t'
  else if e = 'r' then some '\r'
  else if e = 'b' then some '\x08'
  else if e = 'f' then some '\x0c'
  else none

/-- Parse the remainder of a string literal, the opening quote already
consumed: returns the decoded characters and the text after the closing
quote. -/
def parseStringRest : List Char → Option (List Char × List Char)
  | [] => none
  | c :: rest =>
    if c = '"' then some ([], rest)
    else if c = '\\' then
      match rest with
      | [] => none
      | e :: rest2 =>
        match escChar e with
        | none => none
        | some m => (parseStringRest rest2).map (fun p => (m :: p.1, p.2))
    else (parseStringRest rest).map (fun p => (c :: p.1, p.2))

/-- Parse an unsigned decimal integer at the head of the text.  Mirrors the
json number grammar `0|[1-9][0-9]*`: a leading zero is the number zero and
stops there. -/
def parseNatTok (s : List Char) : Option (Nat × List Char) :=
  if s.head? = some '0' then some (0, s.tail)
  else
    let ds := s.takeWhile isDigitChar
    if ds.isEmpty then none
    else some (ds.foldl (fun a c => 10 * a + digitVal c) 0, s.dropWhile isDigitChar)

/-- Parse an optionally negated decimal integer. -/
def parseIntTok (s : List Char) : Option (Int × List Char) :=
  if s.head? = some '-' then (parseNatTok s.tail).map (fun p => (-(p.1 : Int), p.2))
  else (parseNatTok s).map (fun p => ((p.1 : Int), p.2))

mutual

/-- Parse one JSON value after skipping leading whitespace; returns the
value and the unconsumed remainder. -/
def parseValue : Nat → List Char → Option (Json × List Char)
  | 0, _ => none
  | fuel + 1, s =>
    match skipJsonWs s with
    | [] => none
    | c :: rest =>
      if c = '\x7b' then
        if (skipJsonWs rest).head? = some '\x7d' then some (.obj [], (skipJsonWs rest).tail)
        else (parseMembers fuel (skipJsonWs rest)).map (fun p => (.obj p.1, p.2))
      else if c = '[' then
        if (skipJsonWs rest).head? = some ']' then some (.arr [], (skipJsonWs rest).tail)
        else (parseElems fuel rest).map (fun p => (.arr p.1, p.2))
      else if c = '"' then
        (parseStringRest rest).map (fun p => (.str p.1, p.2))
      else if c = 't' then
        if (toL "rue").isPrefixOf rest then some (.bool true, rest.drop 3) else none
      else if c = 'f' then
        if (toL "alse").isPrefixOf rest then some (.bool false, rest.drop 4) else none
      else if c = 'n' then
        if (toL "ull").isPrefixOf rest then some (.null, rest.drop 3) else none
      else
        (parseIntTok (c :: rest)).map (fun p => (.num p.1, p.2))

/-- Parse the members of an object, positioned at the first key (whitespace
already skipped, at least one member present); consumes through the closing
brace. -/
def parseMembers : Nat → List Char → Option (List (List Char × Json) × List Char)
  | 0, _ => none
  | fuel + 1, s =>
    if s.head? = some '"' then
      (parseStringRest s.tail).bind (fun pk =>
        if (skipJsonWs pk.2).head? = some ':' then
          (parseValue fuel (skipJsonWs pk.2).tail).bind (fun pv =>
            if (skipJsonWs pv.2).head? = some ',' then
              (parseMembers fuel (skipJsonWs (skipJsonWs pv.2).tail)).map
                (fun p => ((pk.1, pv.1) :: p.1, p.2))
            else if (skipJsonWs pv.2).head? = some '\x7d' then
              some ([(pk.1, pv.1)], (skipJsonWs pv.2).tail)
            else none)
        else none)
    else none

/-- Parse the elements of a non-empty array, positioned at the first
element; consumes through the closing bracket. -/
def parseElems : Nat → List Char → Option (List Json × List Char)
  | 0, _ => none
  | fuel + 1, s =>
    (parseValue fuel s).bind (fun pv =>
      if (skipJsonWs pv.2).head? = some ',' then
        (parseElems fuel (skipJsonWs pv.2).tail).map (fun p => (pv.1 :: p.1, p.2))
      else if (skipJsonWs pv.2).head? = some ']' then some ([pv.1], (skipJsonWs pv.2).tail)
      else none)

end

/-- The json.loads contract: parse one value and require the rest of the
text to be whitespace; any other outcome raises JSONDecodeError, modelled
as `none`. -/
def json_loads (s : List Char) : Option Json :=
  match parseValue (s.length + 1) s with
  | some (v, r) => if (skipJsonWs r).isEmpty then some v else none
  | none => none

/-- Texts that may legally follow an already-complete value without
changing how it parses: empty, or starting with a non-digit. -/
def extSep (ext : List Char) : Prop :=
  ∀ c, ext.head? = some c → isDigitChar c = false

/-!
### The Object-Stream Recoverer (`correct_json_format` / `parse_json_file`)

A file is `Option (List Char)`: `none` stands for a file whose read raises
(missing or unreadable), `some content` for a successful read.
-/

/-- Python `','.join` over the detected spans. -/
def joinComma : List (List Char) → List Char
  | [] => []
  | [x] => x
  | x :: xs => x ++ ',' :: joinComma xs

/-- Lines 68-78: read the file, find the object boundaries and wrap the
comma-joined spans in array brackets; any exception while reading is caught
and yields the text of an empty array. -/
def correct_json_format (file : Option (List Char)) : List Char :=
  match file with
  | none => toL "[]"
  | some content => '[' :: (joinComma (findAll content) ++ [']'])

/-- Lines 81-90: parse the corrected text; a decode error is caught and
yields the empty list, a non-list result is wrapped in a singleton list. -/
def parse_json_file (file : Option (List Char)) : List Json :=
  match json_loads (correct_json_format file) with
  | none => []
  | some (.arr l) => l
  | some v => [v]

/-- The per-object recovery loop of `get_ndo_versions` (lines 150-158) and
`get_last_audits` (lines 183-192): parse each detected boundary on its own,
keeping the objects that parse and skipping the ones that raise. -/
def recovered_objects (content : List Char) : List Json :=
  (findAll content).filterMap json_loads

/-!
### Archive dispatch and recursive expansion (`process_file`,
`handle_extracted_directory`, lines 36-65)

The filesystem below an extraction directory is a tree of named entries.  A
regular file carries the kind its bytes actually are (`CKind`) and, when it
is an archive, the entries it would extract to; `zipfile`/`tarfile` raise on
content that does not match the invoked extractor.  The model records which
containers were extracted, in order, and whether an exception escaped (the
source has no handler, so an exception aborts the traversal).
-/

/-- What a file's bytes actually are. -/
inductive CKind where
  | zipArchive : CKind
  | tarGzArchive : CKind
  | other : CKind
deriving DecidableEq, Repr

/-- The extractor `process_file` would invoke for a path, or none. -/
inductive Kind where
  | zipK : Kind
  | targzK : Kind
  | noneK : Kind
deriving DecidableEq, Repr

/-- A directory entry: a regular file with its content kind (and extracted
entries, when its bytes form an archive), or a subdirectory. -/
inductive Entry where
  | file (name : List Char) (ck : CKind) (contents : List Entry) : Entry
  | directory (name : List Char) (entries : List Entry) : Entry
deriving Repr

/-- Lines 49 and 54: the suffix dispatch of `process_file`, computed from
the path alone (`.zip` checked first). -/
def chosen_extractor (name : List Char) : Kind :=
  if (toL ".zip").isSuffixOf name then .zipK
  else if (toL ".tar.gz").isSuffixOf name then .targzK
  else .noneK

/-- Whether the invoked extractor accepts the file's actual bytes
(`zipfile.ZipFile` / `tarfile.open('r:gz')` raise otherwise). -/
def matchesContent : Kind → CKind → Bool
  | .zipK, .zipArchive => true
  | .targzK, .tarGzArchive => true
  | _, _ => false

/-- The extractor kind `process_file` would attempt for one directory
entry, as `handle_extracted_directory` visits it: derived from the entry's
name alone (lines 49 and 54); directories are not files, so nothing is
attempted for them. -/
def attempted_kind : Entry → Kind
  | .file n _ _ => chosen_extractor n
  | .directory _ _ => Kind.noneK

mutual

/-- Model of `process_file` on a regular file: no recognized suffix means no action;
a recognized suffix invokes the matching extractor, which raises on
mismatched bytes, and on success the extracted directory is processed.
Returns the names of containers extracted (in completion order of their
extraction step, the container first) and whether an exception escaped. -/
def process_file_run (name : List Char) (ck : CKind) (contents : List Entry) :
    List (List Char) × Bool :=
  if chosen_extractor name = Kind.noneK then ([], false)
  else if matchesContent (chosen_extractor name) ck then
    let p := handle_extracted_directory_run contents
    (name :: p.1, p.2)
  else ([], true)

/-- Model of `handle_extracted_directory` (lines 61-65): iterate over the listing;
process each regular file; an exception raised by `process_file` has no
handler, so it aborts the loop and the remaining entries are not visited. -/
def handle_extracted_directory_run : List Entry → List (List Char) × Bool
  | [] => ([], false)
  | .directory _ _ :: rest => handle_extracted_directory_run rest
  | .file n ck cs :: rest =>
    let p := process_file_run n ck cs
    if p.2 then (p.1, true)
    else
      let q := handle_extracted_directory_run rest
      (p.1 ++ q.1, q.2)

end

/-!
### Extraction-directory naming (`file_path.replace(suffix, '')`)
-/

/-- Python `str.replace(old, new)` on character lists: replace every
non-overlapping occurrence of `old`, scanning left to right.  (CPython
treats an empty `old` as matching between all characters; the script only
replaces non-empty suffixes, and the model returns the string unchanged in
that unused case.) -/
def pyReplaceF : Nat → List Char → List Char → List Char → List Char
  | 0, s, _, _ => s
  | fuel + 1, s, old, new =>
    match s with
    | [] => []
    | c :: rest =>
      if old.isPrefixOf s then new ++ pyReplaceF fuel (s.drop old.length) old new
      else c :: pyReplaceF fuel rest old new

/-- Python `str.replace` (see `pyReplaceF`). -/
def pyReplace (s old new : List Char) : List Char :=
  if old.isEmpty then s else pyReplaceF s.length s old new

/-- Lines 49-57 (and 207): the extraction directory `process_file` derives
for a recognized container path, via `file_path.replace(suffix, '')`. -/
def extract_dir_of (p : List Char) : Option (List Char) :=
  if (toL ".zip").isSuffixOf p then some (pyReplace p (toL ".zip") [])
  else if (toL ".tar.gz").isSuffixOf p then some (pyReplace p (toL ".tar.gz") [])
  else none

/-!
### Dictionary access and the site projection (`extract_site_data`,
lines 93-113)
-/

/-- Lookup in a parsed object's field list; later occurrences of a key
shadow earlier ones, as when the decoder builds a Python dict. -/
def dictGet (fields : List (List Char × Json)) (k : List Char) : Option Json :=
  (fields.reverse.find? (fun p => p.1 = k)).map (fun p => p.2)

/-- Python `data.get(k)` with default `None` on a parsed value known to be
a dict; on a non-dict the model returns `none` (the script only applies it
to values the decoder produced for object boundaries). -/
def pyGet (j : Json) (k : List Char) : Option Json :=
  match j with
  | .obj fields => dictGet fields k
  | _ => none

/-- Python `data.get(k, d)` on a parsed dict. -/
def pyGetD (j : Json) (k : List Char) (d : Json) : Json :=
  match j with
  | .obj fields => (dictGet fields k).getD d
  | _ => d

/-- Python `x.get(k, d)` where `x` may be any value: a dict answers the
lookup, any other value has no `get` attribute and raises AttributeError. -/
def getAttrD (j : Json) (k : List Char) (d : Json) : Except Unit Json :=
  match j with
  | .obj fields => .ok ((dictGet fields k).getD d)
  | _ => .error ()

/-- Lines 93-113: non-dict input yields no record; otherwise the four
fields are projected with placeholder defaults, `data.get("common", {})`
and `data.get("_id", {})` substituting an empty dict for a missing key; an
AttributeError from a present but non-dict `common`/`_id` is caught by the
`except` block, which leaves `results` empty. -/
def extract_site_data (data : Json) : List Json :=
  match data with
  | .obj fields =>
    match
      (do
        let site_id ← getAttrD ((dictGet fields (toL "common")).getD (.obj []))
          (toL "siteid") (.str (toL "Unknown Site ID"))
        let name ← getAttrD ((dictGet fields (toL "common")).getD (.obj []))
          (toL "name") (.str (toL "Unknown Name"))
        let site_version ← getAttrD ((dictGet fields (toL "common")).getD (.obj []))
          (toL "siteversion") (.str (toL "Unknown Version"))
        let oid ← getAttrD ((dictGet fields (toL "_id")).getD (.obj []))
          (toL "$oid") (.str (toL "Unknown Site OID"))
        pure (Json.obj [(toL "Site ID", site_id), (toL "Name", name),
          (toL "Site Version", site_version), (toL "Site OID", oid)]) :
        Except Unit Json)
    with
    | .ok r => [r]
    | .error _ => []
  | _ => []

/-!
### Timestamps, sorting, audits and versions (lines 136-198)
-/

/-- Model of `datetime.fromisoformat` on the script's timestamps, reduced to a sort
key: accepts `YYYY-MM-DD` optionally followed by `T` or a space and
`HH:MM:SS` (the fragment the NDO files use; fractions and offsets are
outside the model), validates calendar ranges, and returns a key whose
order is the chronological order.  Anything else raises, modelled as
`none`. -/
def fromisoKey (s : List Char) : Option Nat :=
  match s with
  | [y1, y2, y3, y4, '-', m1, m2, '-', d1, d2] =>
    fromisoDate y1 y2 y3 y4 m1 m2 d1 d2 0 0 0
  | [y1, y2, y3, y4, '-', m1, m2, '-', d1, d2, sep, h1, h2, ':', n1, n2, ':', s1, s2] =>
    if sep = 'T' || sep = ' ' then
      if isDigitChar h1 && isDigitChar h2 && isDigitChar n1 && isDigitChar n2 &&
          isDigitChar s1 && isDigitChar s2 then
        let hh := 10 * digitVal h1 + digitVal h2
        let nn := 10 * digitVal n1 + digitVal n2
        let ss := 10 * digitVal s1 + digitVal s2
        if hh ≤ 23 && nn ≤ 59 && ss ≤ 59 then
          fromisoDate y1 y2 y3 y4 m1 m2 d1 d2 hh nn ss
        else none
      else none
    else none
  | _ => none
where
  /-- Validate the date digits and assemble the lexicographic key. -/
  fromisoDate (y1 y2 y3 y4 m1 m2 d1 d2 : Char) (hh nn ss : Nat) : Option Nat :=
    if isDigitChar y1 && isDigitChar y2 && isDigitChar y3 && isDigitChar y4 &&
        isDigitChar m1 && isDigitChar m2 && isDigitChar d1 && isDigitChar d2 then
      let y := 1000 * digitVal y1 + 100 * digitVal y2 + 10 * digitVal y3 + digitVal y4
      let mo := 10 * digitVal m1 + digitVal m2
      let d := 10 * digitVal d1 + digitVal d2
      if 1 ≤ y && 1 ≤ mo && mo ≤ 12 && 1 ≤ d && d ≤ daysInMonth y mo then
        some (((((y * 13 + mo) * 32 + d) * 24 + hh) * 60 + nn) * 60 + ss)
      else none
    else none
  /-- Day count of a month in the proleptic Gregorian calendar. -/
  daysInMonth (y mo : Nat) : Nat :=
    if mo = 2 then
      if y % 4 = 0 && (y % 100 ≠ 0 || y % 400 = 0) then 29 else 28
    else if mo = 4 || mo = 6 || mo = 9 || mo = 11 then 30
    else 31

/-- The sort key `datetime.fromisoformat(x)` applied to a recovered field
value: only a string in the accepted format parses, everything else (a
missing-timestamp placeholder, a non-string) raises. -/
def json_fromiso (j : Json) : Option Nat :=
  match j with
  | .str s => fromisoKey s
  | _ => none

/-- Insert into a list sorted by strictly descending key, placing the new
element after existing elements of equal key. -/
def insertDesc (key : α → Nat) (x : α) : List α → List α
  | [] => [x]
  | y :: ys => if key y < key x then x :: y :: ys else y :: insertDesc key x ys

/-- Python `list.sort(key=key, reverse=True)`: a stable descending sort. -/
def sortByKeyDesc (key : α → Nat) (l : List α) : List α :=
  l.foldl (fun acc x => insertDesc key x acc) []

/-- Line 187: `data.get("type") not in ["backup", "backup-record"]`,
negated.  Only a `type` field equal to one of the two strings excludes a
record; a missing `type` is `None`, which is not in the list. -/
def audit_excluded (j : Json) : Bool :=
  match pyGet j (toL "type") with
  | some (.str s) => s = toL "backup" || s = toL "backup-record"
  | _ => false

/-- Lines 188-190: the (timestamp, description) pair appended for a kept
record, with placeholder defaults. -/
def audit_project (j : Json) : Json × Json :=
  (pyGetD j (toL "timestamp") (.str (toL "Unknown Timestamp")),
   pyGetD j (toL "description") (.str (toL "No Description")))

/-- The audit entries accumulated by the loop of lines 183-192, in file
order: every recovered object not excluded by the type filter, projected. -/
def audit_entries_of (content : List Char) : List (Json × Json) :=
  ((recovered_objects content).filter (fun d => !audit_excluded d)).map audit_project

/-- Model of `get_last_audits` (lines 171-198) after the audit file was located and
read: accumulate the kept entries, sort descending by
`datetime.fromisoformat` of the timestamp — raising (`none`) if any sort
key fails to parse — and keep the first 20. -/
def get_last_audits_core (content : List Char) : Option (List (Json × Json)) :=
  if (audit_entries_of content).all (fun e => (json_fromiso e.1).isSome) then
    some ((sortByKeyDesc (fun e => (json_fromiso e.1).getD 0) (audit_entries_of content)).take 20)
  else none

/-- The Python exceptions `get_ndo_versions` can raise. -/
inductive PyErr where
  | nameError : PyErr
  | valueError : PyErr
deriving DecidableEq, Repr

/-- Model of `get_ndo_versions` (lines 137-168), taking the contents of the files
the version glob matched: only the first file is read (line 145); its
recovered objects are projected to (version, timestamp) pairs
(`version_info_of`); the sort of line 163 raises ValueError if any sort key
fails `fromisoformat`; line 166 then evaluates an f-string naming
`version_file`, which is unbound when no file matched, raising
UnboundLocalError (a NameError). -/
def version_info_of (version_files : List (List Char)) : List (Json × Json) :=
  match version_files with
  | [] => []
  | f :: _ =>
    (recovered_objects f).map (fun d =>
      (pyGetD d (toL "version") (.str (toL "Unknown Version")),
       pyGetD d (toL "timestamp") (.str (toL "Unknown Timestamp"))))

/-- See the doc comment above `version_info_of`; this is the function body. -/
def get_ndo_versions_core (version_files : List (List Char)) :
    Except PyErr (List (Json × Json)) :=
  if (version_info_of version_files).all (fun e => (json_fromiso e.2).isSome) then
    if (version_info_of version_files).isEmpty && version_files.isEmpty then .error .nameError
    else .ok (sortByKeyDesc (fun e => (json_fromiso e.2).getD 0) (version_info_of version_files))
  else .error .valueError

/-!
### Generic list lemmas used by the scanning and parsing proofs
-/

theorem tryMatch_rem_lt : ∀ (l m r : List Char), tryMatch l = some (m, r) → r.length < l.length := by
  intro l
  induction l with
  | nil => intro m r h; simp [tryMatch] at h
  | cons c rest ih =>
    intro m r h
    simp only [tryMatch] at h
    by_cases hc : (c = '\x7d' && lookahead rest) = true
    · rw [if_pos hc] at h
      obtain ⟨-, h2⟩ := Prod.mk.injEq .. ▸ Option.some.injEq .. ▸ h
      simp only [Option.some.injEq, Prod.mk.injEq] at h
      obtain ⟨-, hr⟩ := h
      subst hr; simp
    · rw [if_neg hc] at h
      cases h2 : tryMatch rest with
      | none => rw [h2] at h; simp at h
      | some p =>
        rw [h2] at h
        simp only [Option.map_some', Option.some.injEq] at h
        obtain ⟨-, hr⟩ := Prod.mk.injEq .. ▸ h
        have := ih p.1 p.2 (by rw [h2])
        have hr2 : r = p.2 := by
          cases h; rfl
        subst hr2
        exact Nat.lt_succ_of_lt this

theorem dropWhile_append_left {p : Char → Bool} {s : List Char} (ext : List Char)
    (h : s.dropWhile p ≠ []) : (s ++ ext).dropWhile p = s.dropWhile p ++ ext := by
  rw [List.dropWhile_append]
  simp only [List.isEmpty_iff]
  rw [if_neg h]

theorem dropWhile_append_right {p : Char → Bool} {s : List Char} (ext : List Char)
    (h : s.dropWhile p = []) : (s ++ ext).dropWhile p = ext.dropWhile p := by
  rw [List.dropWhile_append]
  simp only [List.isEmpty_iff]
  rw [if_pos h]

theorem head?_append_left {l : List Char} (e : List Char) (h : l ≠ []) :
    (l ++ e).head? = l.head? := by
  cases l with
  | nil => exact absurd rfl h
  | cons c cs => rfl

theorem tail_append_left {l : List Char} (e : List Char) (h : l ≠ []) :
    (l ++ e).tail = l.tail ++ e := by
  cases l with
  | nil => exact absurd rfl h
  | cons c cs => rfl

theorem isPrefixOf_append_left {p l : List Char} (e : List Char)
    (h : p.isPrefixOf l = true) : p.isPrefixOf (l ++ e) = true := by
  rw [List.isPrefixOf_iff_prefix] at h ⊢
  exact h.trans (List.prefix_append l e)

/-!
### Behaviour of the boundary scan
-/

theorem isPyWs_ne_open {c : Char} (h : isPyWs c = true) : ¬(c = '\x7b') := by
  intro hc
  subst hc
  exact absurd h (by decide)

theorem tryMatch_braceFree : ∀ (b rest : List Char),
    b.all (fun c => c != '\x7d') = true → lookahead rest = true →
    tryMatch (b ++ '\x7d' :: rest) = some (b ++ ['\x7d'], rest) := by
  intro b
  induction b with
  | nil =>
    intro rest _ hl
    simp [tryMatch, hl]
  | cons c b ih =>
    intro rest hall hl
    rw [List.all_cons, Bool.and_eq_true] at hall
    obtain ⟨hc, hb⟩ := hall
    have hc2 : ¬(c = '\x7d') := by simpa using hc
    simp only [List.cons_append, tryMatch]
    rw [if_neg (by simp [hc2])]
    rw [List.append_eq, ih rest hb hl]
    rfl

theorem findAllF_congr : ∀ (n : Nat) (l : List Char), l.length ≤ n →
    ∀ f1 f2, l.length ≤ f1 → l.length ≤ f2 → findAllF f1 l = findAllF f2 l := by
  intro n
  induction n with
  | zero =>
    intro l hl f1 f2 h1 h2
    have : l = [] := List.eq_nil_of_length_eq_zero (Nat.le_zero.mp hl)
    subst this
    cases f1 <;> cases f2 <;> rfl
  | succ n ih =>
    intro l hl f1 f2 h1 h2
    cases l with
    | nil => cases f1 <;> cases f2 <;> rfl
    | cons c rest =>
      cases f1 with
      | zero => exact absurd h1 (by simp)
      | succ f1 =>
        cases f2 with
        | zero => exact absurd h2 (by simp)
        | succ f2 =>
          have hrest : rest.length ≤ n := by
            have := hl; simp only [List.length_cons] at this; omega
          have hr1 : rest.length ≤ f1 := by
            have := h1; simp only [List.length_cons] at this; omega
          have hr2 : rest.length ≤ f2 := by
            have := h2; simp only [List.length_cons] at this; omega
          simp only [findAllF]
          by_cases hc : c = '\x7b'
          · rw [if_pos hc, if_pos hc]
            cases hm : tryMatch rest with
            | none => exact ih rest hrest f1 f2 hr1 hr2
            | some p =>
              obtain ⟨m, rem⟩ := p
              have hlt : rem.length < rest.length := tryMatch_rem_lt rest m rem hm
              show (c :: m) :: findAllF f1 rem = (c :: m) :: findAllF f2 rem
              rw [ih rem (by omega) f1 f2 (by omega) (by omega)]
          · rw [if_neg hc, if_neg hc]
            exact ih rest hrest f1 f2 hr1 hr2

theorem findAll_eq_findAllF (l : List Char) (f : Nat) (h : l.length ≤ f) :
    findAll l = findAllF f l :=
  findAllF_congr l.length l Nat.le.refl l.length f Nat.le.refl h

theorem findAll_ws_skip : ∀ (w l : List Char), w.all isPyWs = true →
    findAll (w ++ l) = findAll l := by
  intro w
  induction w with
  | nil => intro l _; rfl
  | cons c w ih =>
    intro l hall
    rw [List.all_cons, Bool.and_eq_true] at hall
    obtain ⟨hc, hw⟩ := hall
    show findAllF ((c :: w) ++ l).length ((c :: w) ++ l) = findAll l
    have h1 : ((c :: w) ++ l).length = (w ++ l).length + 1 := by simp
    rw [h1]
    show findAllF ((w ++ l).length + 1) (c :: (w ++ l)) = findAll l
    simp only [findAllF]
    rw [if_neg (isPyWs_ne_open hc)]
    rw [← findAll_eq_findAllF (w ++ l) _ Nat.le.refl]
    exact ih l hw

theorem findAll_object_step (b rest : List Char)
    (hb : b.all (fun c => c != '\x7d') = true) (hl : lookahead rest = true) :
    findAll ('\x7b' :: (b ++ '\x7d' :: rest)) = ('\x7b' :: (b ++ ['\x7d'])) :: findAll rest := by
  show findAllF ('\x7b' :: (b ++ '\x7d' :: rest)).length ('\x7b' :: (b ++ '\x7d' :: rest)) =
      ('\x7b' :: (b ++ ['\x7d'])) :: findAll rest
  have h1 : ('\x7b' :: (b ++ '\x7d' :: rest)).length = (b ++ '\x7d' :: rest).length + 1 := by simp
  rw [h1]
  simp only [findAllF]
  rw [if_true, tryMatch_braceFree b rest hb hl]
  show ('\x7b' :: (b ++ ['\x7d'])) :: findAllF (b ++ '\x7d' :: rest).length rest =
      ('\x7b' :: (b ++ ['\x7d'])) :: findAll rest
  rw [← findAll_eq_findAllF rest _ (by simp; omega)]


/-!
### Parser lemmas: consuming more input never changes a successful parse
prefix, and fuel only needs to be large enough
-/

theorem parseStringRest_cons (c : Char) (rest : List Char) :
    parseStringRest (c :: rest) =
    if c = '"' then some ([], rest)
    else if c = '\\' then
      match rest with
      | [] => none
      | e :: rest2 =>
        match escChar e with
        | none => none
        | some m => (parseStringRest rest2).map (fun p => (m :: p.1, p.2))
    else (parseStringRest rest).map (fun p => (c :: p.1, p.2)) := by
  rw [parseStringRest.eq_def]

theorem parseStringRest_ext : ∀ (n : Nat) (s : List Char), s.length ≤ n →
    ∀ cs r ext, parseStringRest s = some (cs, r) →
    parseStringRest (s ++ ext) = some (cs, r ++ ext) := by
  intro n
  induction n with
  | zero =>
    intro s hs cs r ext h
    have : s = [] := List.eq_nil_of_length_eq_zero (Nat.le_zero.mp hs)
    subst this
    simp [parseStringRest] at h
  | succ n ih =>
    intro s hs cs r ext h
    cases s with
    | nil => simp [parseStringRest] at h
    | cons c rest =>
      simp only [List.length_cons] at hs
      rw [parseStringRest_cons] at h
      rw [List.cons_append, parseStringRest_cons]
      by_cases hq : c = '"'
      · rw [if_pos hq] at h ⊢
        simp only [Option.some.injEq, Prod.mk.injEq] at h
        obtain ⟨hcs, hr⟩ := h
        subst hcs; subst hr
        rfl
      · rw [if_neg hq] at h ⊢
        by_cases hb : c = '\\'
        · rw [if_pos hb] at h ⊢
          cases rest with
          | nil => simp at h
          | cons e rest2 =>
            simp only [List.length_cons] at hs
            have h2 : (match escChar e with
                | none => none
                | some m => Option.map (fun p => (m :: p.1, p.2)) (parseStringRest rest2)) =
                some (cs, r) := h
            show (match escChar e with
                | none => none
                | some m =>
                  Option.map (fun p => (m :: p.1, p.2)) (parseStringRest (rest2 ++ ext))) =
                some (cs, r ++ ext)
            clear h
            cases he : escChar e with
            | none => rw [he] at h2; simp at h2
            | some m =>
              rw [he] at h2
              have h3 : Option.map (fun p => (m :: p.1, p.2)) (parseStringRest rest2) =
                  some (cs, r) := h2
              show Option.map (fun p => (m :: p.1, p.2)) (parseStringRest (rest2 ++ ext)) =
                  some (cs, r ++ ext)
              cases hp : parseStringRest rest2 with
              | none => rw [hp] at h3; simp at h3
              | some p =>
                rw [hp] at h3
                simp only [Option.map_some', Option.some.injEq, Prod.mk.injEq] at h3
                obtain ⟨hcs, hr⟩ := h3
                subst hcs; subst hr
                rw [ih rest2 (by omega) p.1 p.2 ext (by rw [hp])]
                rfl
        · rw [if_neg hb] at h ⊢
          cases hp : parseStringRest rest with
          | none => rw [hp] at h; simp at h
          | some p =>
            rw [hp] at h
            simp only [Option.map_some', Option.some.injEq, Prod.mk.injEq] at h
            obtain ⟨hcs, hr⟩ := h
            subst hcs; subst hr
            rw [ih rest (by omega) p.1 p.2 ext (by rw [hp])]
            rfl

theorem takeWhile_eq_self_of_dropWhile_nil {p : Char → Bool} : ∀ {s : List Char},
    s.dropWhile p = [] → s.takeWhile p = s := by
  intro s
  induction s with
  | nil => intro _; rfl
  | cons c cs ih =>
    intro h
    rw [List.dropWhile_cons] at h
    by_cases hc : p c
    · rw [List.takeWhile_cons, if_pos hc, ih (by rwa [if_pos hc] at h)]
    · rw [if_neg hc] at h; simp at h

theorem takeWhile_append_left {p : Char → Bool} : ∀ {s : List Char} (ext : List Char),
    s.dropWhile p ≠ [] → (s ++ ext).takeWhile p = s.takeWhile p := by
  intro s
  induction s with
  | nil => intro ext h; exact absurd rfl h
  | cons c cs ih =>
    intro ext h
    rw [List.dropWhile_cons] at h
    by_cases hc : p c
    · rw [List.cons_append, List.takeWhile_cons, List.takeWhile_cons, if_pos hc, if_pos hc,
        ih ext (by rwa [if_pos hc] at h)]
    · rw [List.cons_append, List.takeWhile_cons, List.takeWhile_cons, if_neg hc, if_neg hc]

theorem dropWhile_sep_eq_self {ext : List Char} (hsep : extSep ext) :
    ext.dropWhile isDigitChar = ext := by
  cases ext with
  | nil => rfl
  | cons c cs =>
    rw [List.dropWhile_cons, if_neg (by rw [hsep c rfl]; exact Bool.false_ne_true)]

theorem takeWhile_all_append {p : Char → Bool} {s : List Char} (ext : List Char)
    (h : s.dropWhile p = []) (hext : ext.dropWhile p = ext) :
    (s ++ ext).takeWhile p = s := by
  rw [List.takeWhile_append]
  have hall : s.takeWhile p = s := takeWhile_eq_self_of_dropWhile_nil h
  rw [if_pos (by rw [hall])]
  have : ext.takeWhile p = [] := by
    cases ext with
    | nil => rfl
    | cons c cs =>
      rw [List.dropWhile_cons] at hext
      by_cases hc : p c
      · rw [if_pos hc] at hext
        have hlen : (List.dropWhile p cs).length ≤ cs.length := by
          simpa using List.IsSuffix.length_le (List.dropWhile_suffix p (l := cs))
        rw [hext] at hlen
        simp at hlen
      · rw [List.takeWhile_cons, if_neg hc]
  rw [this, List.append_nil]

theorem parseNatTok_ext (s : List Char) (k : Nat) (r ext : List Char)
    (h : parseNatTok s = some (k, r)) (hsep : r = [] → extSep ext) :
    parseNatTok (s ++ ext) = some (k, r ++ ext) := by
  cases s with
  | nil => simp [parseNatTok] at h
  | cons c rest =>
    simp only [parseNatTok, List.head?_cons, List.tail_cons, List.cons_append] at h ⊢
    by_cases h0 : (some c = some '0')
    · rw [if_pos h0] at h
      rw [if_pos h0]
      simp only [Option.some.injEq, Prod.mk.injEq] at h
      obtain ⟨hk, hr⟩ := h
      subst hk; subst hr
      rfl
    · rw [if_neg h0] at h
      rw [if_neg h0]
      by_cases hds : ((c :: rest).takeWhile isDigitChar).isEmpty
      · rw [if_pos hds] at h; simp at h
      · rw [if_neg hds] at h
        simp only [Option.some.injEq, Prod.mk.injEq] at h
        obtain ⟨hk, hr⟩ := h
        by_cases hrn : (c :: rest).dropWhile isDigitChar = []
        · have hsep2 : extSep ext := hsep (by rw [← hr, hrn])
          have ht : ((c :: rest) ++ ext).takeWhile isDigitChar = c :: rest :=
            takeWhile_all_append ext hrn (dropWhile_sep_eq_self hsep2)
          rw [List.cons_append] at ht
          rw [ht]
          have hts : (c :: rest).takeWhile isDigitChar = c :: rest :=
            takeWhile_eq_self_of_dropWhile_nil hrn
          rw [if_neg (by simp)]
          have hde : ((c :: rest) ++ ext).dropWhile isDigitChar = ext := by
            rw [List.dropWhile_append]
            simp only [List.isEmpty_iff]
            rw [if_pos hrn]
            exact dropWhile_sep_eq_self hsep2
          rw [List.cons_append] at hde
          rw [hde, ← hr, hrn]
          rw [hts] at hk
          rw [← hk, List.nil_append]
        · have ht : ((c :: rest) ++ ext).takeWhile isDigitChar =
              (c :: rest).takeWhile isDigitChar := takeWhile_append_left ext hrn
          rw [List.cons_append] at ht
          rw [ht, if_neg hds]
          have hde : ((c :: rest) ++ ext).dropWhile isDigitChar =
              (c :: rest).dropWhile isDigitChar ++ ext := dropWhile_append_left ext hrn
          rw [List.cons_append] at hde
          rw [hde, ← hr, ← hk]

theorem parseIntTok_ext (s : List Char) (k : Int) (r ext : List Char)
    (h : parseIntTok s = some (k, r)) (hsep : r = [] → extSep ext) :
    parseIntTok (s ++ ext) = some (k, r ++ ext) := by
  cases s with
  | nil =>
    simp [parseIntTok, parseNatTok] at h
  | cons c rest =>
    simp only [parseIntTok, List.head?_cons, List.tail_cons, List.cons_append] at h ⊢
    by_cases hm : (some c = some '-')
    · rw [if_pos hm] at h
      rw [if_pos hm]
      cases hp : parseNatTok rest with
      | none => rw [hp] at h; simp at h
      | some p =>
        rw [hp] at h
        simp only [Option.map_some', Option.some.injEq, Prod.mk.injEq] at h
        obtain ⟨hk, hr⟩ := h
        subst hk; subst hr
        rw [parseNatTok_ext rest p.1 p.2 ext (by rw [hp]) hsep]
        rfl
    · rw [if_neg hm] at h
      rw [if_neg hm]
      cases hp : parseNatTok (c :: rest) with
      | none => rw [hp] at h; simp at h
      | some p =>
        rw [hp] at h
        simp only [Option.map_some', Option.some.injEq, Prod.mk.injEq] at h
        obtain ⟨hk, hr⟩ := h
        subst hk; subst hr
        have := parseNatTok_ext (c :: rest) p.1 p.2 ext (by rw [hp]) hsep
        rw [List.cons_append] at this
        rw [this]
        rfl

/-!
### Shape lemmas for the fuelled parser
-/

theorem parseValue_cons (fuel : Nat) (s : List Char) (c : Char) (rest : List Char)
    (hsk : skipJsonWs s = c :: rest) :
    parseValue (fuel + 1) s =
      (if c = '\x7b' then
        if (skipJsonWs rest).head? = some '\x7d' then some (.obj [], (skipJsonWs rest).tail)
        else (parseMembers fuel (skipJsonWs rest)).map (fun p => (.obj p.1, p.2))
      else if c = '[' then
        if (skipJsonWs rest).head? = some ']' then some (.arr [], (skipJsonWs rest).tail)
        else (parseElems fuel rest).map (fun p => (.arr p.1, p.2))
      else if c = '"' then
        (parseStringRest rest).map (fun p => (.str p.1, p.2))
      else if c = 't' then
        if (toL "rue").isPrefixOf rest then some (.bool true, rest.drop 3) else none
      else if c = 'f' then
        if (toL "alse").isPrefixOf rest then some (.bool false, rest.drop 4) else none
      else if c = 'n' then
        if (toL "ull").isPrefixOf rest then some (.null, rest.drop 3) else none
      else
        (parseIntTok (c :: rest)).map (fun p => (.num p.1, p.2))) := by
  rw [parseValue, hsk]

theorem parseValue_none (fuel : Nat) (s : List Char) (hsk : skipJsonWs s = []) :
    parseValue (fuel + 1) s = none := by
  rw [parseValue, hsk]

theorem parseMembers_succ (fuel : Nat) (s : List Char) :
    parseMembers (fuel + 1) s =
      (if s.head? = some '"' then
        (parseStringRest s.tail).bind (fun pk =>
          if (skipJsonWs pk.2).head? = some ':' then
            (parseValue fuel (skipJsonWs pk.2).tail).bind (fun pv =>
              if (skipJsonWs pv.2).head? = some ',' then
                (parseMembers fuel (skipJsonWs (skipJsonWs pv.2).tail)).map
                  (fun p => ((pk.1, pv.1) :: p.1, p.2))
              else if (skipJsonWs pv.2).head? = some '\x7d' then
                some ([(pk.1, pv.1)], (skipJsonWs pv.2).tail)
              else none)
          else none)
      else none) := by
  rw [parseMembers]

theorem parseElems_succ (fuel : Nat) (s : List Char) :
    parseElems (fuel + 1) s =
      (parseValue fuel s).bind (fun pv =>
        if (skipJsonWs pv.2).head? = some ',' then
          (parseElems fuel (skipJsonWs pv.2).tail).map (fun p => (pv.1 :: p.1, p.2))
        else if (skipJsonWs pv.2).head? = some ']' then some ([pv.1], (skipJsonWs pv.2).tail)
        else none) := by
  rw [parseElems]

theorem parse_mono : ∀ fuel : Nat,
    (∀ s v r, parseValue fuel s = some (v, r) → parseValue (fuel + 1) s = some (v, r)) ∧
    (∀ s ms r, parseMembers fuel s = some (ms, r) → parseMembers (fuel + 1) s = some (ms, r)) ∧
    (∀ s vs r, parseElems fuel s = some (vs, r) → parseElems (fuel + 1) s = some (vs, r)) := by
  intro fuel
  induction fuel with
  | zero =>
    refine ⟨?_, ?_, ?_⟩ <;> intro s a r h <;>
      simp [parseValue, parseMembers, parseElems] at h
  | succ fuel ih =>
    obtain ⟨ihv, ihm, ihe⟩ := ih
    refine ⟨?_, ?_, ?_⟩
    · intro s v r h
      cases hsk : skipJsonWs s with
      | nil => rw [parseValue_none fuel s hsk] at h; exact absurd h (by simp)
      | cons c rest =>
        rw [parseValue_cons fuel s c rest hsk] at h
        rw [parseValue_cons (fuel + 1) s c rest hsk]
        by_cases h1 : c = '\x7b'
        · rw [if_pos h1] at h ⊢
          by_cases h2 : (skipJsonWs rest).head? = some '\x7d'
          · rw [if_pos h2] at h ⊢; exact h
          · rw [if_neg h2] at h ⊢
            cases hm : parseMembers fuel (skipJsonWs rest) with
            | none => rw [hm] at h; simp at h
            | some p =>
              rw [hm] at h
              rw [ihm _ p.1 p.2 (by rw [hm])]
              exact h
        · rw [if_neg h1] at h ⊢
          by_cases h2 : c = '['
          · rw [if_pos h2] at h ⊢
            by_cases h3 : (skipJsonWs rest).head? = some ']'
            · rw [if_pos h3] at h ⊢; exact h
            · rw [if_neg h3] at h ⊢
              cases he : parseElems fuel rest with
              | none => rw [he] at h; simp at h
              | some p =>
                rw [he] at h
                rw [ihe _ p.1 p.2 (by rw [he])]
                exact h
          · rw [if_neg h2] at h ⊢
            exact h
    · intro s ms r h
      rw [parseMembers_succ fuel s] at h
      rw [parseMembers_succ (fuel + 1) s]
      by_cases h1 : s.head? = some '"'
      · rw [if_pos h1] at h ⊢
        cases hk : parseStringRest s.tail with
        | none => rw [hk] at h; simp at h
        | some pk =>
          rw [hk] at h
          simp only [Option.some_bind] at h ⊢
          by_cases h2 : (skipJsonWs pk.2).head? = some ':'
          · rw [if_pos h2] at h ⊢
            cases hv : parseValue fuel (skipJsonWs pk.2).tail with
            | none => rw [hv] at h; simp at h
            | some pv =>
              rw [hv] at h
              rw [ihv _ pv.1 pv.2 (by rw [hv])]
              simp only [Option.some_bind] at h ⊢
              by_cases h3 : (skipJsonWs pv.2).head? = some ','
              · rw [if_pos h3] at h ⊢
                cases hm2 : parseMembers fuel (skipJsonWs (skipJsonWs pv.2).tail) with
                | none => rw [hm2] at h; simp at h
                | some pm =>
                  rw [hm2] at h
                  rw [ihm _ pm.1 pm.2 (by rw [hm2])]
                  exact h
              · rw [if_neg h3] at h ⊢
                exact h
          · rw [if_neg h2] at h
            exact absurd h (by simp)
      · rw [if_neg h1] at h
        exact absurd h (by simp)
    · intro s vs r h
      rw [parseElems_succ fuel s] at h
      rw [parseElems_succ (fuel + 1) s]
      cases hv : parseValue fuel s with
      | none => rw [hv] at h; simp at h
      | some pv =>
        rw [hv] at h
        rw [ihv _ pv.1 pv.2 (by rw [hv])]
        simp only [Option.some_bind] at h ⊢
        by_cases h3 : (skipJsonWs pv.2).head? = some ','
        · rw [if_pos h3] at h ⊢
          cases he2 : parseElems fuel (skipJsonWs pv.2).tail with
          | none => rw [he2] at h; simp at h
          | some pe =>
            rw [he2] at h
            rw [ihe _ pe.1 pe.2 (by rw [he2])]
            exact h
        · rw [if_neg h3] at h ⊢
          exact h

theorem parseValue_mono_le (f1 f2 : Nat) (hle : f1 ≤ f2) :
    ∀ s v r, parseValue f1 s = some (v, r) → parseValue f2 s = some (v, r) := by
  induction f2 with
  | zero =>
    intro s v r h
    have : f1 = 0 := Nat.le_zero.mp hle
    subst this
    exact h
  | succ f2 ih =>
    intro s v r h
    rcases Nat.lt_or_ge f1 (f2 + 1) with hlt | hge
    · exact (parse_mono f2).1 s v r (ih (Nat.lt_succ_iff.mp hlt) s v r h)
    · have : f1 = f2 + 1 := Nat.le_antisymm hle hge
      subst this
      exact h

theorem parseMembers_nil (fuel : Nat) : parseMembers fuel [] = none := by
  cases fuel with
  | zero => rfl
  | succ fuel => rw [parseMembers_succ]; rfl

theorem parseValue_ws_nil (fuel : Nat) (s : List Char) (h : skipJsonWs s = []) :
    parseValue fuel s = none := by
  cases fuel with
  | zero => rfl
  | succ fuel => exact parseValue_none fuel s h

theorem parseElems_ws_nil (fuel : Nat) (s : List Char) (h : skipJsonWs s = []) :
    parseElems fuel s = none := by
  cases fuel with
  | zero => rfl
  | succ fuel => rw [parseElems_succ, parseValue_ws_nil fuel s h]; rfl

theorem ne_nil_of_head?_eq {l : List Char} {c : Char} (h : l.head? = some c) : l ≠ [] := by
  intro heq
  rw [heq] at h
  exact absurd h (by simp)

theorem ne_nil_of_skip_head? {l : List Char} {c : Char} (h : (skipJsonWs l).head? = some c) :
    l ≠ [] := by
  intro heq
  rw [heq] at h
  exact absurd h (by simp [skipJsonWs])

theorem parse_ext : ∀ fuel : Nat,
    (∀ s v r ext, parseValue fuel s = some (v, r) → (r = [] → extSep ext) →
      parseValue fuel (s ++ ext) = some (v, r ++ ext)) ∧
    (∀ s ms r ext, parseMembers fuel s = some (ms, r) → (r = [] → extSep ext) →
      parseMembers fuel (s ++ ext) = some (ms, r ++ ext)) ∧
    (∀ s vs r ext, parseElems fuel s = some (vs, r) → (r = [] → extSep ext) →
      parseElems fuel (s ++ ext) = some (vs, r ++ ext)) := by
  intro fuel
  induction fuel with
  | zero =>
    refine ⟨?_, ?_, ?_⟩ <;> intro s a r ext h hsep <;>
      simp [parseValue, parseMembers, parseElems] at h
  | succ fuel ih =>
    obtain ⟨ihv, ihm, ihe⟩ := ih
    refine ⟨?_, ?_, ?_⟩
    · intro s v r ext h hsep
      cases hsk : skipJsonWs s with
      | nil => rw [parseValue_none fuel s hsk] at h; exact absurd h (by simp)
      | cons c rest =>
        have hskne : skipJsonWs s ≠ [] := by rw [hsk]; simp
        have hsk2 : skipJsonWs (s ++ ext) = c :: (rest ++ ext) := by
          have hsk' : List.dropWhile isJsonWs s = c :: rest := hsk
          have := dropWhile_append_left (p := isJsonWs) (s := s) ext hskne
          rw [hsk'] at this
          exact this
        rw [parseValue_cons fuel s c rest hsk] at h
        rw [parseValue_cons fuel (s ++ ext) c (rest ++ ext) hsk2]
        by_cases h1 : c = '\x7b'
        · rw [if_pos h1] at h ⊢
          by_cases h2 : (skipJsonWs rest).head? = some '\x7d'
          · rw [if_pos h2] at h
            have hne : skipJsonWs rest ≠ [] := ne_nil_of_head?_eq h2
            have hap : skipJsonWs (rest ++ ext) = skipJsonWs rest ++ ext :=
              dropWhile_append_left ext hne
            rw [hap, if_pos (by rw [head?_append_left ext hne]; exact h2)]
            rw [tail_append_left ext hne]
            simp only [Option.some.injEq, Prod.mk.injEq] at h
            obtain ⟨hv, hr⟩ := h
            subst hv; subst hr
            rfl
          · rw [if_neg h2] at h
            cases hm : parseMembers fuel (skipJsonWs rest) with
            | none => rw [hm] at h; simp at h
            | some pm =>
              rw [hm] at h
              simp only [Option.map_some', Option.some.injEq, Prod.mk.injEq] at h
              obtain ⟨hv, hr⟩ := h
              have hne : skipJsonWs rest ≠ [] := by
                intro heq
                rw [heq, parseMembers_nil] at hm
                exact absurd hm (by simp)
              have hap : skipJsonWs (rest ++ ext) = skipJsonWs rest ++ ext :=
                dropWhile_append_left ext hne
              rw [hap, if_neg (by rw [head?_append_left ext hne]; exact h2)]
              rw [ihm (skipJsonWs rest) pm.1 pm.2 ext (by rw [hm]) (by rw [hr]; exact hsep)]
              rw [← hv, ← hr]
              rfl
        · rw [if_neg h1] at h ⊢
          by_cases h2 : c = '['
          · rw [if_pos h2] at h ⊢
            by_cases h3 : (skipJsonWs rest).head? = some ']'
            · rw [if_pos h3] at h
              have hne : skipJsonWs rest ≠ [] := ne_nil_of_head?_eq h3
              have hap : skipJsonWs (rest ++ ext) = skipJsonWs rest ++ ext :=
                dropWhile_append_left ext hne
              rw [hap, if_pos (by rw [head?_append_left ext hne]; exact h3)]
              rw [tail_append_left ext hne]
              simp only [Option.some.injEq, Prod.mk.injEq] at h
              obtain ⟨hv, hr⟩ := h
              subst hv; subst hr
              rfl
            · rw [if_neg h3] at h
              cases he : parseElems fuel rest with
              | none => rw [he] at h; simp at h
              | some pe =>
                rw [he] at h
                simp only [Option.map_some', Option.some.injEq, Prod.mk.injEq] at h
                obtain ⟨hv, hr⟩ := h
                have hne : skipJsonWs rest ≠ [] := by
                  intro heq
                  rw [parseElems_ws_nil fuel rest heq] at he
                  exact absurd he (by simp)
                have hap : skipJsonWs (rest ++ ext) = skipJsonWs rest ++ ext :=
                  dropWhile_append_left ext hne
                rw [hap, if_neg (by rw [head?_append_left ext hne]; exact h3)]
                rw [ihe rest pe.1 pe.2 ext (by rw [he]) (by rw [hr]; exact hsep)]
                rw [← hv, ← hr]
                rfl
          · rw [if_neg h2] at h ⊢
            by_cases h4 : c = '"'
            · rw [if_pos h4] at h ⊢
              cases hp : parseStringRest rest with
              | none => rw [hp] at h; simp at h
              | some ps =>
                rw [hp] at h
                simp only [Option.map_some', Option.some.injEq, Prod.mk.injEq] at h
                obtain ⟨hv, hr⟩ := h
                rw [parseStringRest_ext rest.length rest Nat.le.refl ps.1 ps.2 ext (by rw [hp])]
                rw [← hv, ← hr]
                rfl
            · rw [if_neg h4] at h ⊢
              by_cases h5 : c = 't'
              · rw [if_pos h5] at h ⊢
                by_cases h6 : (toL "rue").isPrefixOf rest
                · rw [if_pos h6] at h
                  rw [if_pos (isPrefixOf_append_left ext h6)]
                  have hlen : 3 ≤ rest.length := by
                    have := List.IsPrefix.length_le (List.isPrefixOf_iff_prefix.mp h6)
                    simpa [toL] using this
                  rw [List.drop_append_of_le_length hlen]
                  simp only [Option.some.injEq, Prod.mk.injEq] at h
                  obtain ⟨hv, hr⟩ := h
                  subst hv; subst hr
                  rfl
                · rw [if_neg h6] at h; simp at h
              · rw [if_neg h5] at h ⊢
                by_cases h7 : c = 'f'
                · rw [if_pos h7] at h ⊢
                  by_cases h8 : (toL "alse").isPrefixOf rest
                  · rw [if_pos h8] at h
                    rw [if_pos (isPrefixOf_append_left ext h8)]
                    have hlen : 4 ≤ rest.length := by
                      have := List.IsPrefix.length_le (List.isPrefixOf_iff_prefix.mp h8)
                      simpa [toL] using this
                    rw [List.drop_append_of_le_length hlen]
                    simp only [Option.some.injEq, Prod.mk.injEq] at h
                    obtain ⟨hv, hr⟩ := h
                    subst hv; subst hr
                    rfl
                  · rw [if_neg h8] at h; simp at h
                · rw [if_neg h7] at h ⊢
                  by_cases h9 : c = 'n'
                  · rw [if_pos h9] at h ⊢
                    by_cases h10 : (toL "ull").isPrefixOf rest
                    · rw [if_pos h10] at h
                      rw [if_pos (isPrefixOf_append_left ext h10)]
                      have hlen : 3 ≤ rest.length := by
                        have := List.IsPrefix.length_le (List.isPrefixOf_iff_prefix.mp h10)
                        simpa [toL] using this
                      rw [List.drop_append_of_le_length hlen]
                      simp only [Option.some.injEq, Prod.mk.injEq] at h
                      obtain ⟨hv, hr⟩ := h
                      subst hv; subst hr
                      rfl
                    · rw [if_neg h10] at h; simp at h
                  · rw [if_neg h9] at h ⊢
                    cases hi : parseIntTok (c :: rest) with
                    | none => rw [hi] at h; simp at h
                    | some pi =>
                      rw [hi] at h
                      simp only [Option.map_some', Option.some.injEq, Prod.mk.injEq] at h
                      obtain ⟨hv, hr⟩ := h
                      have := parseIntTok_ext (c :: rest) pi.1 pi.2 ext (by rw [hi])
                        (by rw [hr]; exact hsep)
                      rw [List.cons_append] at this
                      rw [this, ← hv, ← hr]
                      rfl
    · intro s ms r ext h hsep
      rw [parseMembers_succ fuel s] at h
      by_cases h1 : s.head? = some '"'
      · have hsne : s ≠ [] := ne_nil_of_head?_eq h1
        rw [parseMembers_succ fuel (s ++ ext),
          if_pos (by rw [head?_append_left ext hsne]; exact h1)]
        rw [if_pos h1] at h
        cases hk : parseStringRest s.tail with
        | none => rw [hk] at h; simp at h
        | some pk =>
          rw [hk] at h
          simp only [Option.some_bind] at h
          have hkext : parseStringRest (s.tail ++ ext) = some (pk.1, pk.2 ++ ext) :=
            parseStringRest_ext s.tail.length s.tail Nat.le.refl pk.1 pk.2 ext (by rw [hk])
          rw [tail_append_left ext hsne, hkext]
          simp only [Option.some_bind]
          by_cases h2 : (skipJsonWs pk.2).head? = some ':'
          · rw [if_pos h2] at h
            have hne2 : skipJsonWs pk.2 ≠ [] := ne_nil_of_head?_eq h2
            have hap2 : skipJsonWs (pk.2 ++ ext) = skipJsonWs pk.2 ++ ext :=
              dropWhile_append_left ext hne2
            rw [hap2, if_pos (by rw [head?_append_left ext hne2]; exact h2)]
            cases hv : parseValue fuel (skipJsonWs pk.2).tail with
            | none => rw [hv] at h; simp at h
            | some pv =>
              rw [hv] at h
              simp only [Option.some_bind] at h
              have hpvne : skipJsonWs pv.2 ≠ [] := by
                intro heq
                rw [heq] at h
                simp at h
              have hpv2 : pv.2 = [] → extSep ext := by
                intro heq
                exact absurd (by rw [heq]; rfl) hpvne
              have hvext : parseValue fuel ((skipJsonWs pk.2).tail ++ ext) =
                  some (pv.1, pv.2 ++ ext) := ihv _ pv.1 pv.2 ext (by rw [hv]) hpv2
              rw [tail_append_left ext hne2, hvext]
              simp only [Option.some_bind]
              have hap3 : skipJsonWs (pv.2 ++ ext) = skipJsonWs pv.2 ++ ext :=
                dropWhile_append_left ext hpvne
              by_cases h3 : (skipJsonWs pv.2).head? = some ','
              · rw [if_pos h3] at h
                rw [hap3, if_pos (by rw [head?_append_left ext hpvne]; exact h3)]
                cases hm2 : parseMembers fuel (skipJsonWs ((skipJsonWs pv.2).tail)) with
                | none => rw [hm2] at h; simp at h
                | some pm =>
                  rw [hm2] at h
                  simp only [Option.map_some', Option.some.injEq, Prod.mk.injEq] at h
                  obtain ⟨hms, hr⟩ := h
                  have hxne : skipJsonWs ((skipJsonWs pv.2).tail) ≠ [] := by
                    intro heq
                    rw [heq, parseMembers_nil] at hm2
                    exact absurd hm2 (by simp)
                  have hap4 : skipJsonWs ((skipJsonWs pv.2).tail ++ ext) =
                      skipJsonWs ((skipJsonWs pv.2).tail) ++ ext :=
                    dropWhile_append_left ext hxne
                  rw [tail_append_left ext hpvne, hap4]
                  rw [ihm _ pm.1 pm.2 ext (by rw [hm2]) (by rw [hr]; exact hsep)]
                  rw [← hms, ← hr]
                  rfl
              · rw [if_neg h3] at h
                rw [hap3, if_neg (by rw [head?_append_left ext hpvne]; exact h3)]
                by_cases h4 : (skipJsonWs pv.2).head? = some '\x7d'
                · rw [if_pos h4] at h
                  rw [if_pos (by rw [head?_append_left ext hpvne]; exact h4)]
                  rw [tail_append_left ext hpvne]
                  simp only [Option.some.injEq, Prod.mk.injEq] at h
                  obtain ⟨hms, hr⟩ := h
                  subst hms; subst hr
                  rfl
                · rw [if_neg h4] at h
                  exact absurd h (by simp)
          · rw [if_neg h2] at h
            exact absurd h (by simp)
      · rw [if_neg h1] at h
        exact absurd h (by simp)
    · intro s vs r ext h hsep
      rw [parseElems_succ fuel s] at h
      rw [parseElems_succ fuel (s ++ ext)]
      cases hv : parseValue fuel s with
      | none => rw [hv] at h; simp at h
      | some pv =>
        rw [hv] at h
        simp only [Option.some_bind] at h
        have hpvne : skipJsonWs pv.2 ≠ [] := by
          intro heq
          rw [heq] at h
          simp at h
        have hpv2 : pv.2 = [] → extSep ext := by
          intro heq
          exact absurd (by rw [heq]; rfl) hpvne
        rw [ihv s pv.1 pv.2 ext (by rw [hv]) hpv2]
        simp only [Option.some_bind]
        have hap3 : skipJsonWs (pv.2 ++ ext) = skipJsonWs pv.2 ++ ext :=
          dropWhile_append_left ext hpvne
        by_cases h3 : (skipJsonWs pv.2).head? = some ','
        · rw [if_pos h3] at h
          rw [hap3, if_pos (by rw [head?_append_left ext hpvne]; exact h3)]
          cases he2 : parseElems fuel ((skipJsonWs pv.2).tail) with
          | none => rw [he2] at h; simp at h
          | some pe =>
            rw [he2] at h
            simp only [Option.map_some', Option.some.injEq, Prod.mk.injEq] at h
            obtain ⟨hvs, hr⟩ := h
            rw [tail_append_left ext hpvne]
            rw [ihe _ pe.1 pe.2 ext (by rw [he2]) (by rw [hr]; exact hsep)]
            rw [← hvs, ← hr]
            rfl
        · rw [if_neg h3] at h
          rw [hap3, if_neg (by rw [head?_append_left ext hpvne]; exact h3)]
          by_cases h4 : (skipJsonWs pv.2).head? = some ']'
          · rw [if_pos h4] at h
            rw [if_pos (by rw [head?_append_left ext hpvne]; exact h4)]
            rw [tail_append_left ext hpvne]
            simp only [Option.some.injEq, Prod.mk.injEq] at h
            obtain ⟨hvs, hr⟩ := h
            subst hvs; subst hr
            rfl
          · rw [if_neg h4] at h
            exact absurd h (by simp)

/-!
### Sorting lemmas
-/

theorem mem_insertDesc {α : Type} (key : α → Nat) (x z : α) : ∀ l : List α,
    z ∈ insertDesc key x l ↔ z = x ∨ z ∈ l := by
  intro l
  induction l with
  | nil => simp [insertDesc]
  | cons y ys ih =>
    simp only [insertDesc]
    by_cases hc : key y < key x
    · rw [if_pos hc]
      simp [List.mem_cons]
    · rw [if_neg hc]
      simp only [List.mem_cons, ih]
      tauto

theorem insertDesc_sorted {α : Type} (key : α → Nat) (x : α) : ∀ l : List α,
    l.Pairwise (fun a b => key b ≤ key a) →
    (insertDesc key x l).Pairwise (fun a b => key b ≤ key a) := by
  intro l
  induction l with
  | nil => intro _; simp [insertDesc]
  | cons y ys ih =>
    intro h
    rw [List.pairwise_cons] at h
    obtain ⟨hy, hys⟩ := h
    simp only [insertDesc]
    by_cases hc : key y < key x
    · rw [if_pos hc]
      rw [List.pairwise_cons]
      constructor
      · intro z hz
        rcases List.mem_cons.mp hz with hz | hz
        · subst hz; omega
        · have := hy z hz; omega
      · exact List.pairwise_cons.mpr ⟨hy, hys⟩
    · rw [if_neg hc]
      rw [List.pairwise_cons]
      constructor
      · intro z hz
        rcases (mem_insertDesc key x z ys).mp hz with hz | hz
        · subst hz; omega
        · exact hy z hz
      · exact ih hys

theorem sortByKeyDesc_sorted {α : Type} (key : α → Nat) (l : List α) :
    (sortByKeyDesc key l).Pairwise (fun a b => key b ≤ key a) := by
  have main : ∀ (l acc : List α), acc.Pairwise (fun a b => key b ≤ key a) →
      (l.foldl (fun acc x => insertDesc key x acc) acc).Pairwise (fun a b => key b ≤ key a) := by
    intro l
    induction l with
    | nil => intro acc h; exact h
    | cons x xs ih =>
      intro acc h
      exact ih (insertDesc key x acc) (insertDesc_sorted key x acc h)
  exact main l [] (by simp)

theorem mem_sortByKeyDesc {α : Type} (key : α → Nat) (l : List α) (z : α) :
    z ∈ sortByKeyDesc key l → z ∈ l := by
  have main : ∀ (l acc : List α), z ∈ l.foldl (fun acc x => insertDesc key x acc) acc →
      z ∈ acc ∨ z ∈ l := by
    intro l
    induction l with
    | nil => intro acc h; exact Or.inl h
    | cons x xs ih =>
      intro acc h
      rcases ih (insertDesc key x acc) h with h2 | h2
      · rcases (mem_insertDesc key x z acc).mp h2 with h3 | h3
        · subst h3; simp
        · exact Or.inl h3
      · simp [h2]
  intro h
  rcases main l [] h with h2 | h2
  · simp at h2
  · exact h2

/-!
### `str.replace` lemmas
-/

theorem pyReplaceF_nil (fuel : Nat) (old new : List Char) :
    pyReplaceF fuel [] old new = [] := by
  cases fuel <;> rfl

theorem pyReplaceF_strip (old : List Char) (hold : old ≠ []) : ∀ (stem : List Char) (fuel : Nat),
    (stem ++ old).length ≤ fuel →
    (∀ i, i < stem.length → ¬ old.isPrefixOf ((stem ++ old).drop i) = true) →
    pyReplaceF fuel (stem ++ old) old [] = stem := by
  intro stem
  induction stem with
  | nil =>
    intro fuel hf _
    simp only [List.nil_append] at hf ⊢
    cases fuel with
    | zero =>
      cases old with
      | nil => exact absurd rfl hold
      | cons c cs => simp at hf
    | succ fuel =>
      cases old with
      | nil => exact absurd rfl hold
      | cons c cs =>
        show (if (c :: cs).isPrefixOf (c :: cs) then
            [] ++ pyReplaceF fuel ((c :: cs).drop (c :: cs).length) (c :: cs) []
          else c :: pyReplaceF fuel cs (c :: cs) []) = []
        rw [if_pos (by rw [List.isPrefixOf_iff_prefix])]
        rw [List.drop_length, pyReplaceF_nil, List.nil_append]
  | cons c stem ih =>
    intro fuel hf hocc
    cases fuel with
    | zero => simp at hf
    | succ fuel =>
      have h0 := hocc 0 (by simp)
      simp only [List.drop_zero] at h0
      show (if old.isPrefixOf ((c :: stem) ++ old) then
          [] ++ pyReplaceF fuel (((c :: stem) ++ old).drop old.length) old []
        else c :: pyReplaceF fuel (stem ++ old) old []) = c :: stem
      rw [if_neg h0]
      rw [ih fuel (by simp at hf ⊢; omega) (fun i hi => by
        have := hocc (i + 1) (by simp; omega)
        simpa using this)]

/-!
### json.loads on the assembled two-object array
-/

theorem json_loads_elim (t : List Char) (o : Json) (h : json_loads t = some o) :
    ∃ r, parseValue (t.length + 1) t = some (o, r) ∧ skipJsonWs r = [] := by
  unfold json_loads at h
  cases hp : parseValue (t.length + 1) t with
  | none =>
    rw [hp] at h
    simp at h
  | some q =>
    obtain ⟨v, r⟩ := q
    rw [hp] at h
    have h2 : (if (skipJsonWs r).isEmpty then some v else none) = some o := h
    by_cases he : (skipJsonWs r).isEmpty
    · rw [if_pos he] at h2
      have hvo : v = o := Option.some.inj h2
      subst hvo
      refine ⟨r, rfl, List.isEmpty_iff.mp he⟩
    · rw [if_neg he] at h2
      exact absurd h2 (by simp)

theorem extSep_comma (t : List Char) : extSep (',' :: t) := by
  intro c hc
  simp only [List.head?_cons, Option.some.injEq] at hc
  subst hc
  decide

theorem extSep_rbracket : extSep [']'] := by
  intro c hc
  simp only [List.head?_cons, Option.some.injEq] at hc
  subst hc
  decide

theorem skipJsonWs_cons_of_not_ws {c : Char} (l : List Char) (h : isJsonWs c = false) :
    skipJsonWs (c :: l) = c :: l := by
  show List.dropWhile isJsonWs (c :: l) = c :: l
  rw [List.dropWhile_cons, if_neg (by rw [h]; exact Bool.false_ne_true)]

theorem json_loads_pair_array (t1 t2 : List Char) (o1 o2 : Json)
    (hh1 : t1.head? = some '\x7b') (hh2 : t2.head? = some '\x7b')
    (h1 : json_loads t1 = some o1) (h2 : json_loads t2 = some o2) :
    json_loads ('[' :: (t1 ++ ',' :: (t2 ++ [']']))) = some (.arr [o1, o2]) := by
  obtain ⟨r1, hp1, hr1⟩ := json_loads_elim t1 o1 h1
  obtain ⟨r2, hp2, hr2⟩ := json_loads_elim t2 o2 h2
  cases ht1 : t1 with
  | nil => rw [ht1] at hh1; simp at hh1
  | cons c1 t1x =>
  cases ht2 : t2 with
  | nil => rw [ht2] at hh2; simp at hh2
  | cons c2 t2x =>
  have hc1 : c1 = '\x7b' := by rw [ht1] at hh1; simpa using hh1
  have hc2 : c2 = '\x7b' := by rw [ht2] at hh2; simpa using hh2
  rw [← ht1, ← ht2]
  set X := t1 ++ ',' :: (t2 ++ [']']) with hX
  have hXcons : X = c1 :: (t1x ++ ',' :: (t2 ++ [']'])) := by
    rw [hX, ht1]
    rfl
  have hlen : ('[' :: X).length + 1 = (t1.length + t2.length + 2) + 1 + 1 := by
    rw [hX]
    simp
    omega
  unfold json_loads
  rw [hlen]
  have hskc : skipJsonWs ('[' :: X) = '[' :: X := skipJsonWs_cons_of_not_ws X (by decide)
  rw [parseValue_cons (t1.length + t2.length + 2 + 1) ('[' :: X) '[' X hskc]
  rw [if_neg (by decide), if_pos rfl]
  have hskX : skipJsonWs X = X := by
    rw [hXcons]
    exact skipJsonWs_cons_of_not_ws _ (by rw [hc1]; decide)
  have hheadX : X.head? = some c1 := by rw [hXcons]; rfl
  rw [hskX, if_neg (by rw [hheadX, hc1]; decide)]
  have hM : t1.length + t2.length + 2 + 1 = (t1.length + t2.length + 1) + 1 + 1 := by omega
  rw [hM]
  rw [parseElems_succ (t1.length + t2.length + 1 + 1) X]
  have hv1 : parseValue (t1.length + t2.length + 1 + 1) X = some (o1, r1 ++ ',' :: (t2 ++ [']'])) := by
    have hext := (parse_ext (t1.length + 1)).1 t1 o1 r1 (',' :: (t2 ++ [']'])) hp1
      (fun _ => extSep_comma _)
    exact parseValue_mono_le (t1.length + 1) (t1.length + t2.length + 1 + 1)
      (by omega) _ _ _ hext
  rw [hv1]
  simp only [Option.some_bind]
  have hsk1 : skipJsonWs (r1 ++ ',' :: (t2 ++ [']'])) = ',' :: (t2 ++ [']']) := by
    show List.dropWhile isJsonWs (r1 ++ ',' :: (t2 ++ [']'])) = ',' :: (t2 ++ [']'])
    rw [dropWhile_append_right _ hr1]
    exact skipJsonWs_cons_of_not_ws _ (by decide)
  rw [hsk1]
  rw [if_pos (show (',' :: (t2 ++ [']'])).head? = some ',' from rfl)]
  rw [List.tail_cons]
  rw [parseElems_succ (t1.length + t2.length + 1) (t2 ++ [']'])]
  have hv2 : parseValue (t1.length + t2.length + 1) (t2 ++ [']']) = some (o2, r2 ++ [']']) := by
    have hext := (parse_ext (t2.length + 1)).1 t2 o2 r2 [']'] hp2 (fun _ => extSep_rbracket)
    exact parseValue_mono_le (t2.length + 1) (t1.length + t2.length + 1) (by omega) _ _ _ hext
  rw [hv2]
  simp only [Option.some_bind]
  have hsk2 : skipJsonWs (r2 ++ [']']) = [']'] := by
    show List.dropWhile isJsonWs (r2 ++ [']']) = [']']
    rw [dropWhile_append_right _ hr2]
    exact skipJsonWs_cons_of_not_ws _ (by decide)
  rw [hsk2]
  rw [if_neg (by decide), if_pos (show ([']'] : List Char).head? = some ']' from rfl)]
  rfl

/-!
### Claim C1
-/

theorem parse_json_file_some (content : List Char) :
    parse_json_file (some content) =
      match json_loads ('[' :: (joinComma (findAll content) ++ [']'])) with
      | none => []
      | some (.arr l) => l
      | some v => [v] := rfl

/-- C1 (amended): for every input text consisting of exactly two well-formed
JSON objects written adjacently with zero or more whitespace characters
between them, where neither object's text contains a closing brace other
than its final character, the Object-Stream Recoverer returns exactly two
parsed values equal to the two objects, in input order. -/
theorem c1_round_trip_amended (b1 b2 w : List Char) (o1 o2 : Json)
    (hb1 : b1.all (fun c => c != '\x7d') = true)
    (hb2 : b2.all (fun c => c != '\x7d') = true)
    (hw : w.all isPyWs = true)
    (h1 : json_loads ('\x7b' :: (b1 ++ ['\x7d'])) = some o1)
    (h2 : json_loads ('\x7b' :: (b2 ++ ['\x7d'])) = some o2) :
    parse_json_file
      (some (('\x7b' :: (b1 ++ ['\x7d'])) ++ w ++ ('\x7b' :: (b2 ++ ['\x7d'])))) = [o1, o2] := by
  have hlw : lookahead (w ++ ('\x7b' :: (b2 ++ ['\x7d']))) = true := by
    unfold lookahead
    have hwd : w.dropWhile isPyWs = [] :=
      List.dropWhile_eq_nil_iff.mpr (List.all_eq_true.mp hw)
    rw [dropWhile_append_right _ hwd]
    rw [List.dropWhile_cons, if_neg (by decide)]
    simp
  have hfa : findAll (('\x7b' :: (b1 ++ ['\x7d'])) ++ w ++ ('\x7b' :: (b2 ++ ['\x7d']))) =
      [('\x7b' :: (b1 ++ ['\x7d'])), ('\x7b' :: (b2 ++ ['\x7d']))] := by
    have hshape : (('\x7b' :: (b1 ++ ['\x7d'])) ++ w ++ ('\x7b' :: (b2 ++ ['\x7d']))) =
        '\x7b' :: (b1 ++ '\x7d' :: (w ++ ('\x7b' :: (b2 ++ ['\x7d'])))) := by
      simp
    rw [hshape]
    rw [findAll_object_step b1 _ hb1 hlw]
    rw [findAll_ws_skip w _ hw]
    have hshape2 : ('\x7b' :: (b2 ++ ['\x7d'])) = '\x7b' :: (b2 ++ '\x7d' :: ([] : List Char)) := by
      simp
    rw [hshape2]
    rw [findAll_object_step b2 [] hb2 rfl]
    rfl
  rw [parse_json_file_some]
  rw [hfa]
  have hjoin : joinComma [('\x7b' :: (b1 ++ ['\x7d'])), ('\x7b' :: (b2 ++ ['\x7d']))] =
      ('\x7b' :: (b1 ++ ['\x7d'])) ++ ',' :: ('\x7b' :: (b2 ++ ['\x7d'])) := rfl
  rw [hjoin]
  have hshape3 : '[' :: ((('\x7b' :: (b1 ++ ['\x7d'])) ++ ',' :: ('\x7b' :: (b2 ++ ['\x7d']))) ++ [']']) =
      '[' :: (('\x7b' :: (b1 ++ ['\x7d'])) ++ ',' :: (('\x7b' :: (b2 ++ ['\x7d'])) ++ [']'])) := by
    simp
  rw [hshape3]
  rw [json_loads_pair_array ('\x7b' :: (b1 ++ ['\x7d'])) ('\x7b' :: (b2 ++ ['\x7d'])) o1 o2
    rfl rfl h1 h2]

/-- C1 counterexample: two well-formed JSON objects written adjacently
(the first contains a closing brace inside a string literal followed by
whitespace and an opening brace); the boundary heuristic mis-splits, and
the recovered values are not the two objects. -/
theorem c1_cex :
    json_loads (toL "\x7b\"a\":\"\x7d \x7b\"\x7d") =
      some (Json.obj [(toL "a", Json.str (toL "\x7d \x7b"))]) ∧
    json_loads (toL "\x7b\"b\":2\x7d") = some (Json.obj [(toL "b", Json.num 2)]) ∧
    parse_json_file (some (toL "\x7b\"a\":\"\x7d \x7b\"\x7d" ++ toL "\x7b\"b\":2\x7d")) ≠
      [Json.obj [(toL "a", Json.str (toL "\x7d \x7b"))], Json.obj [(toL "b", Json.num 2)]] := by
  refine ⟨rfl, rfl, ?_⟩
  intro h
  have hev : parse_json_file (some (toL "\x7b\"a\":\"\x7d \x7b\"\x7d" ++ toL "\x7b\"b\":2\x7d")) =
      [Json.obj [(toL "a", Json.str (toL "\x7d,\x7b"))], Json.obj [(toL "b", Json.num 2)]] := rfl
  rw [hev] at h
  injection h with h1 h2
  injection h1 with hf
  injection hf with hp hr
  have hsnd : Json.str (toL "\x7d,\x7b") = Json.str (toL "\x7d \x7b") := congrArg Prod.snd hp
  injection hsnd with hs
  exact absurd hs (by decide)

/-- Witness for `c1_round_trip_amended` at a concrete pair of flat objects
separated by one space. -/
theorem c1_round_trip_witness :
    parse_json_file (some (('\x7b' :: (toL "\"a\":1" ++ ['\x7d'])) ++ toL " " ++
      ('\x7b' :: (toL "\"b\":2" ++ ['\x7d'])))) =
      [Json.obj [(toL "a", Json.num 1)], Json.obj [(toL "b", Json.num 2)]] :=
  c1_round_trip_amended (toL "\"a\":1") (toL "\"b\":2") (toL " ")
    (Json.obj [(toL "a", Json.num 1)]) (Json.obj [(toL "b", Json.num 2)])
    (by decide) (by decide) (by decide) rfl rfl

/-!
### Claim C2
-/

/-- C2: `parse_json_file` returns a list on every input and never lets an
exception escape: an unreadable file yields `[]`, an empty file yields
`[]`, and an assembled text that fails to parse yields `[]`. -/
theorem c2_total_contract :
    parse_json_file none = [] ∧
    parse_json_file (some []) = [] ∧
    ∀ f, json_loads (correct_json_format f) = none → parse_json_file f = [] := by
  refine ⟨rfl, rfl, ?_⟩
  intro f h
  unfold parse_json_file
  rw [h]

/-- Witness for `c2_total_contract` on a file whose single boundary is
malformed, so the whole-array parse fails. -/
theorem c2_witness :
    json_loads (correct_json_format (some (toL "\x7b]\x7d"))) = none ∧
    parse_json_file (some (toL "\x7b]\x7d")) = [] :=
  ⟨rfl, c2_total_contract.2.2 (some (toL "\x7b]\x7d")) rfl⟩

/-!
### Claim C9
-/

/-- C9 counterexample: a single detected boundary containing stray
top-level tokens is split by the whole-array parse into three recovered
values, exceeding the boundary count. -/
theorem c9_cex :
    (findAll (toL "\x7b\"k\":0\x7d, 2, \x7b\"m\":1\x7d")).length = 1 ∧
    (parse_json_file (some (toL "\x7b\"k\":0\x7d, 2, \x7b\"m\":1\x7d"))).length = 3 :=
  ⟨rfl, rfl⟩

/-- C9 (amended): the per-object recovery loops (versions, audits) recover
at most one object per detected boundary, so their recovered count never
exceeds the boundary count; a boundary that fails to parse is skipped, not
an error. -/
theorem c9_boundary_bound (content : List Char) :
    (recovered_objects content).length ≤ (findAll content).length :=
  List.length_filterMap_le json_loads (findAll content)

/-!
### Claim C3
-/

/-- C3 counterexample: the same gzip-tar bytes are handled differently
depending on the file name alone — named `.zip` they are dispatched to the
zip extractor, which raises; named `.tar.gz` they extract.  The content
never influences which extractor runs. -/
theorem c3_cex :
    chosen_extractor (toL "a.zip") = Kind.zipK ∧
    process_file_run (toL "a.zip") CKind.tarGzArchive [] = ([], true) ∧
    process_file_run (toL "a.tar.gz") CKind.tarGzArchive [] = ([toL "a.tar.gz"], false) := by
  refine ⟨by decide, ?_, ?_⟩
  · simp only [process_file_run]
    rw [if_neg (by decide), if_neg (by decide)]
  · simp only [process_file_run]
    rw [if_neg (by decide), if_pos (by decide)]
    simp [handle_extracted_directory_run]

/-- C3 (amended): the Unpacker recognizes a container's type from the file
path alone — a `.zip` suffix (checked first), else a `.tar.gz` suffix, else
nothing; the entry's actual bytes play no part in the recognition. -/
theorem c3_dispatch_name_only :
    (∀ (n : List Char) (ck ck' : CKind) (cs cs' : List Entry),
      attempted_kind (Entry.file n ck cs) = attempted_kind (Entry.file n ck' cs')) ∧
    (∀ n : List Char, chosen_extractor n =
      (if (toL ".zip").isSuffixOf n then Kind.zipK
       else if (toL ".tar.gz").isSuffixOf n then Kind.targzK
       else Kind.noneK)) :=
  ⟨fun _ _ _ _ _ => rfl, fun _ => rfl⟩

/-!
### Claim C4
-/

theorem isSuffixOf_append_self (stem sfx : List Char) :
    sfx.isSuffixOf (stem ++ sfx) = true := by
  rw [List.isSuffixOf_iff_suffix]
  exact List.suffix_append stem sfx

theorem zip_not_suffix_targz (stem : List Char) :
    (toL ".zip").isSuffixOf (stem ++ toL ".tar.gz") = false := by
  show ((toL ".zip").reverse.isPrefixOf (stem ++ toL ".tar.gz").reverse) = false
  rw [List.reverse_append]
  simp [toL, List.isPrefixOf]

/-- C4 counterexample: a container path in which the archive suffix occurs
twice; `replace` removes both occurrences, so the extraction directory is
not the path with the suffix stripped from the end. -/
theorem c4_cex :
    extract_dir_of (toL "a.zip.zip") = some (toL "a") ∧ toL "a" ≠ toL "a.zip" :=
  ⟨rfl, by decide⟩

/-- C4 (amended): `process_file` derives the directory with
`path.replace(suffix, '')`, which removes every occurrence of the suffix
substring; when the suffix occurs in the path only as the trailing suffix,
the directory is the path with that trailing suffix removed and the rest
unchanged. -/
theorem c4_dir_naming (s1 s2 : List Char)
    (h1 : ∀ i, i < s1.length → ¬ (toL ".zip").isPrefixOf ((s1 ++ toL ".zip").drop i) = true)
    (h2 : ∀ i, i < s2.length → ¬ (toL ".tar.gz").isPrefixOf ((s2 ++ toL ".tar.gz").drop i) = true) :
    extract_dir_of (s1 ++ toL ".zip") = some s1 ∧
    extract_dir_of (s2 ++ toL ".tar.gz") = some s2 := by
  constructor
  · unfold extract_dir_of
    rw [if_pos (isSuffixOf_append_self s1 (toL ".zip"))]
    unfold pyReplace
    rw [if_neg (by decide)]
    exact congrArg some (pyReplaceF_strip (toL ".zip") (by decide) s1 _ Nat.le.refl h1)
  · unfold extract_dir_of
    rw [if_neg (by rw [zip_not_suffix_targz s2]; exact Bool.false_ne_true)]
    rw [if_pos (isSuffixOf_append_self s2 (toL ".tar.gz"))]
    unfold pyReplace
    rw [if_neg (by decide)]
    exact congrArg some (pyReplaceF_strip (toL ".tar.gz") (by decide) s2 _ Nat.le.refl h2)

/-- Witness for `c4_dir_naming` on a path whose suffix occurs only at the
end. -/
theorem c4_dir_naming_witness :
    extract_dir_of (toL "bundle" ++ toL ".zip") = some (toL "bundle") ∧
    extract_dir_of (toL "bundle" ++ toL ".tar.gz") = some (toL "bundle") :=
  c4_dir_naming (toL "bundle") (toL "bundle") (by decide) (by decide)

/-!
### Claim C5
-/

/-- C5 counterexample: a directory listing a corrupt `.zip` first and a
well-formed `.zip` second; the extraction exception propagates out of the
loop and the sibling is never processed (the processed-container log is
empty). -/
theorem c5_cex :
    handle_extracted_directory_run
      [Entry.file (toL "a.zip") CKind.other [], Entry.file (toL "b.zip") CKind.zipArchive []] =
      ([], true) ∧
    toL "b.zip" ∉ (handle_extracted_directory_run
      [Entry.file (toL "a.zip") CKind.other [],
       Entry.file (toL "b.zip") CKind.zipArchive []]).1 := by
  have h : handle_extracted_directory_run
      [Entry.file (toL "a.zip") CKind.other [], Entry.file (toL "b.zip") CKind.zipArchive []] =
      ([], true) := by
    simp [handle_extracted_directory_run, process_file_run, chosen_extractor, matchesContent]
    decide
  exact ⟨h, by rw [h]; simp⟩

/-- C5 (amended): when extraction of one container in a directory fails,
the exception propagates with no handler: the traversal stops, entries
after the failing container are not processed, and the caller sees the
error; only the siblings processed before the failure were handled. -/
theorem c5_error_aborts_siblings (pre post : List Entry) (n : List Char) (ck : CKind)
    (cs : List Entry) (hk : ¬ chosen_extractor n = Kind.noneK)
    (hbad : matchesContent (chosen_extractor n) ck = false)
    (hpre : (handle_extracted_directory_run pre).2 = false) :
    handle_extracted_directory_run (pre ++ Entry.file n ck cs :: post) =
      ((handle_extracted_directory_run pre).1, true) := by
  have hp : process_file_run n ck cs = ([], true) := by
    simp only [process_file_run]
    rw [if_neg hk, if_neg (by rw [hbad]; exact Bool.false_ne_true)]
  induction pre with
  | nil =>
    simp only [List.nil_append, handle_extracted_directory_run]
    rw [hp]
    simp [handle_extracted_directory_run]
  | cons e pre ih =>
    cases e with
    | directory nm es =>
      simp only [List.cons_append, handle_extracted_directory_run] at hpre ⊢
      exact ih hpre
    | file nm ck2 cs2 =>
      simp only [List.cons_append, handle_extracted_directory_run] at hpre ⊢
      by_cases hp2 : ((process_file_run nm ck2 cs2).2 = true)
      · rw [if_pos hp2] at hpre
        simp at hpre
      · rw [if_neg hp2] at hpre
        simp only at hpre
        rw [if_neg hp2, if_neg hp2]
        simp only at hpre ⊢
        rw [ih hpre]

/-- Witness for `c5_error_aborts_siblings`: an empty prefix, a corrupt
`.zip`, and one sibling after it. -/
theorem c5_error_witness :
    handle_extracted_directory_run ([] ++ Entry.file (toL "x.zip") CKind.other [] ::
      [Entry.file (toL "y.zip") CKind.zipArchive []]) =
      ((handle_extracted_directory_run []).1, true) :=
  c5_error_aborts_siblings [] [Entry.file (toL "y.zip") CKind.zipArchive []]
    (toL "x.zip") CKind.other [] (by decide) (by decide)
    (by simp [handle_extracted_directory_run])

/-!
### Claim C6
-/

/-- C6: whenever `get_last_audits_core` succeeds — exactly the case in
which every kept record's sort-key timestamp is a valid ISO date-time
string — the emitted list is sorted non-increasing by timestamp key, has
length at most 20, and every entry is the projection of a recovered record
whose `type` is not in the backup exclusion set. -/
theorem c6_audit_contract (content : List Char) (l : List (Json × Json))
    (h : get_last_audits_core content = some l) :
    l.Pairwise (fun a b => (json_fromiso b.1).getD 0 ≤ (json_fromiso a.1).getD 0) ∧
    l.length ≤ 20 ∧
    ∀ e ∈ l, ∃ d ∈ recovered_objects content, audit_excluded d = false ∧ e = audit_project d := by
  unfold get_last_audits_core at h
  by_cases hall : (audit_entries_of content).all (fun e => (json_fromiso e.1).isSome) = true
  · rw [if_pos hall] at h
    have hl : l = (sortByKeyDesc (fun e => (json_fromiso e.1).getD 0)
        (audit_entries_of content)).take 20 := (Option.some.inj h).symm
    subst hl
    refine ⟨?_, ?_, ?_⟩
    · exact List.Pairwise.sublist (List.take_sublist _ _) (sortByKeyDesc_sorted _ _)
    · exact List.length_take_le _ _
    · intro e he
      have he2 : e ∈ sortByKeyDesc (fun e => (json_fromiso e.1).getD 0)
          (audit_entries_of content) := (List.take_sublist _ _).subset he
      have he3 := mem_sortByKeyDesc _ _ _ he2
      unfold audit_entries_of at he3
      obtain ⟨d, hd, hproj⟩ := List.mem_map.mp he3
      have hd2 := List.mem_filter.mp hd
      refine ⟨d, hd2.1, ?_, hproj.symm⟩
      have := hd2.2
      simpa using this
  · rw [if_neg hall] at h
    exact absurd h (by simp)

set_option maxRecDepth 8000 in
/-- Witness for `c6_audit_contract`: three records (one backup-typed, two
kept, out of order); the core succeeds and the theorem yields the sorted
contract for the emitted list. -/
theorem c6_audit_witness :
    get_last_audits_core (toL ("\x7b\"type\":\"backup\",\"timestamp\":\"2024-01-01T00:00:00\",\"description\":\"b\"\x7d " ++
      "\x7b\"timestamp\":\"2024-03-01T10:00:00\",\"description\":\"x\"\x7d " ++
      "\x7b\"timestamp\":\"2024-02-01T09:30:00\",\"description\":\"y\"\x7d")) =
      some [(Json.str (toL "2024-03-01T10:00:00"), Json.str (toL "x")),
        (Json.str (toL "2024-02-01T09:30:00"), Json.str (toL "y"))] ∧
    ([(Json.str (toL "2024-03-01T10:00:00"), Json.str (toL "x")),
      (Json.str (toL "2024-02-01T09:30:00"), Json.str (toL "y"))] :
        List (Json × Json)).Pairwise
      (fun a b => (json_fromiso b.1).getD 0 ≤ (json_fromiso a.1).getD 0) :=
  ⟨rfl,
   (c6_audit_contract
     (toL ("\x7b\"type\":\"backup\",\"timestamp\":\"2024-01-01T00:00:00\",\"description\":\"b\"\x7d " ++
       "\x7b\"timestamp\":\"2024-03-01T10:00:00\",\"description\":\"x\"\x7d " ++
       "\x7b\"timestamp\":\"2024-02-01T09:30:00\",\"description\":\"y\"\x7d"))
     [(Json.str (toL "2024-03-01T10:00:00"), Json.str (toL "x")),
      (Json.str (toL "2024-02-01T09:30:00"), Json.str (toL "y"))] rfl).1⟩

/-!
### Claim C7
-/

/-- C7: `get_ndo_versions` on a directory where the version-file glob
matches nothing: every (vacuously zero) sort-key timestamp is parseable,
yet the function raises, because line 166 evaluates an f-string naming
`version_file`, which was never assigned (UnboundLocalError). -/
theorem c7_nameerror_on_missing_file :
    get_ndo_versions_core [] = Except.error PyErr.nameError := rfl

/-!
### Claim C8
-/

/-- C8 counterexample: a recovered dictionary whose `common` value is a
number; `int` has no `get`, the AttributeError is caught, and the object
yields no site record instead of a record of placeholders. -/
theorem c8_cex : extract_site_data (Json.obj [(toL "common", Json.num 5)]) = [] := rfl

/-- C8 (amended): for every recovered dictionary whose `common` and `_id`
values, where present, are themselves dictionaries, `extract_site_data`
produces exactly one projected record in which each missing field resolves
to its fixed placeholder string; a present but non-dictionary `common` or
`_id` instead raises AttributeError, which is caught, and the object
yields no record. -/
theorem c8_site_placeholders (fields cf idf : List (List Char × Json))
    (hc : (dictGet fields (toL "common")).getD (Json.obj []) = Json.obj cf)
    (hi : (dictGet fields (toL "_id")).getD (Json.obj []) = Json.obj idf) :
    extract_site_data (Json.obj fields) =
      [Json.obj
        [(toL "Site ID", (dictGet cf (toL "siteid")).getD (Json.str (toL "Unknown Site ID"))),
         (toL "Name", (dictGet cf (toL "name")).getD (Json.str (toL "Unknown Name"))),
         (toL "Site Version",
          (dictGet cf (toL "siteversion")).getD (Json.str (toL "Unknown Version"))),
         (toL "Site OID",
          (dictGet idf (toL "$oid")).getD (Json.str (toL "Unknown Site OID")))]] := by
  simp only [extract_site_data]
  rw [hc, hi]
  rfl

/-- Witness for `c8_site_placeholders` on the empty dictionary: every field
missing, every placeholder used, one record produced. -/
theorem c8_site_witness :
    extract_site_data (Json.obj []) =
      [Json.obj
        [(toL "Site ID", Json.str (toL "Unknown Site ID")),
         (toL "Name", Json.str (toL "Unknown Name")),
         (toL "Site Version", Json.str (toL "Unknown Version")),
         (toL "Site OID", Json.str (toL "Unknown Site OID"))]] :=
  c8_site_placeholders [] [] [] rfl rfl

/-!
### Claim C10
-/

/-- C10: a recovered audit record with no `type` field passes the
backup filter and its projection is accumulated into the audit entries;
in general a record is excluded exactly when its `type` equals the string
"backup" or "backup-record", so a missing `type` is never treated as
backup-related. -/
theorem c10_missing_type_included (content : List Char) (d : Json)
    (hd : d ∈ recovered_objects content)
    (ht : pyGet d (toL "type") = none) :
    audit_excluded d = false ∧
    audit_project d ∈ audit_entries_of content ∧
    ∀ j : Json, audit_excluded j = true ↔
      (pyGet j (toL "type") = some (Json.str (toL "backup")) ∨
       pyGet j (toL "type") = some (Json.str (toL "backup-record"))) := by
  have hexc : audit_excluded d = false := by
    unfold audit_excluded
    rw [ht]
  refine ⟨hexc, ?_, ?_⟩
  · unfold audit_entries_of
    exact List.mem_map_of_mem audit_project
      (List.mem_filter.mpr ⟨hd, by rw [hexc]; rfl⟩)
  · intro j
    unfold audit_excluded
    cases hj : pyGet j (toL "type") with
    | none => simp
    | some v =>
      cases v with
      | str s => simp
      | null => simp
      | bool b => simp
      | num n => simp
      | arr xs => simp
      | obj fs => simp

set_option maxRecDepth 8000 in
/-- Witness for `c10_missing_type_included`: a recovered record carrying
only a timestamp and a description; it passes the filter and is
accumulated. -/
theorem c10_missing_type_witness :
    audit_excluded (Json.obj [(toL "timestamp", Json.str (toL "2024-01-02T03:04:05")),
      (toL "description", Json.str (toL "x"))]) = false ∧
    audit_project (Json.obj [(toL "timestamp", Json.str (toL "2024-01-02T03:04:05")),
      (toL "description", Json.str (toL "x"))]) ∈
      audit_entries_of (toL "\x7b\"timestamp\":\"2024-01-02T03:04:05\",\"description\":\"x\"\x7d") := by
  have hd : (Json.obj [(toL "timestamp", Json.str (toL "2024-01-02T03:04:05")),
      (toL "description", Json.str (toL "x"))]) ∈
      recovered_objects (toL "\x7b\"timestamp\":\"2024-01-02T03:04:05\",\"description\":\"x\"\x7d") := by
    have h : recovered_objects
        (toL "\x7b\"timestamp\":\"2024-01-02T03:04:05\",\"description\":\"x\"\x7d") =
        [Json.obj [(toL "timestamp", Json.str (toL "2024-01-02T03:04:05")),
          (toL "description", Json.str (toL "x"))]] := rfl
    rw [h]
    exact List.mem_singleton.mpr rfl
  have hmain := c10_missing_type_included
    (toL "\x7b\"timestamp\":\"2024-01-02T03:04:05\",\"description\":\"x\"\x7d")
    (Json.obj [(toL "timestamp", Json.str (toL "2024-01-02T03:04:05")),
      (toL "description", Json.str (toL "x"))]) hd rfl
  exact ⟨hmain.1, hmain.2.1⟩
